import Mathlib

/-!
# Boost.Stacktrace POSIX backend (`boost/stacktrace/detail/backend_posix.hpp`)

A shallow embedding of the POSIX backend, built without `BOOST_STACKTRACE_USE_BACKTRACE`
(the `#else` branches of the header), and theorems about it.

* `std::string` is `List Char`; a C string (`const char*`) is a `List Char` read up to its
  first NUL (`c_str`).
* `std::size_t` is `Nat` reduced modulo `2^64` where the code can wrap, `int` is `Int`
  reduced to the signed 32-bit range by `to_int`.
* Everything the header obtains from outside (the dynamic loader, `/proc/self/exe`, the
  `addr2line` child process, the demangler, the stack being unwound) is an explicit input.
* A function returns `none` where the C++ has no defined result (an exception escaping
  `std::string::resize`, a null `const char*` appended to a string).
-/

namespace Stacktrace

/-! ## Strings -/

/-- The NUL character that terminates a C string. -/
def NUL : Char := Char.ofNat 0

/-- Reading a `std::string` or a `char` array as a C string: the characters before the
first NUL. -/
def c_str (s : List Char) : List Char := s.takeWhile (fun c => c ≠ NUL)

/-- `s.find_last_of(c)`: the greatest index holding `c`; `none` is `std::string::npos`. -/
def find_last_of : List Char → Char → Option Nat
  | [], _ => none
  | x :: xs, c =>
    match find_last_of xs c with
    | some i => some (i + 1)
    | none => if x = c then some 0 else none

/-- `s.substr(pos, n)` for `pos ≤ s.size()`; the count `none` is `npos` (to the end). -/
def substr (s : List Char) (pos : Nat) (n : Option Nat) : List Char :=
  match n with
  | none => s.drop pos
  | some k => (s.drop pos).take k

/-- `s.resize(n)`: truncates, or pads with NUL characters. -/
def resize (s : List Char) (n : Nat) : List Char :=
  s.take n ++ List.replicate (n - s.length) NUL

/-- `boost::lexical_cast<boost::array<char, 40> >(n).data()`: the decimal digits of `n`. -/
def lexical_cast_array (n : Nat) : List Char := Nat.toDigits 10 n

/-- The digit loop of Boost.LexicalCast (`lcast_ret_unsigned<..., std::size_t, ...>::convert`):
a non-empty run of decimal digits whose value fits in `std::size_t`. -/
def lcast_ret_unsigned (s : List Char) : Option Nat :=
  if s ≠ [] ∧ s.all Char.isDigit = true then
    let v := s.foldl (fun a c => 10 * a + (c.toNat - 48)) 0
    if v < 2 ^ 64 then some v else none
  else none

/-- `boost::conversion::try_lexical_convert(res, line_num)` with `line_num` a `std::size_t`
(Boost.LexicalCast, `shr_unsigned`, classic locale): an optional leading `+` or `-`, then
digits; a leading `-` negates the value modulo `2^64`, as the library documents for unsigned
targets. `none` is the result `false`. -/
def try_lexical_convert (s : List Char) : Option Nat :=
  match s with
  | [] => none
  | c :: rest =>
    match lcast_ret_unsigned (if c = '-' ∨ c = '+' then rest else c :: rest) with
    | none => none
    | some v => some (if c = '-' then (2 ^ 64 - v) % 2 ^ 64 else v)

/-! ## The environment -/

/-- The two fields of `Dl_info` that the backend reads; `none` is a null pointer. -/
structure Dl_info where
  /-- Pathname of the module containing the address. -/
  dli_fname : Option (List Char)
  /-- Name of the nearest symbol at or below the address. -/
  dli_sname : Option (List Char)
  deriving DecidableEq

/-- What the backend obtains from outside the header. -/
structure Env where
  /-- The call `dladdr(addr, &dli)`: `none` when it returns 0, else the `Dl_info` it fills. -/
  dladdr : Nat → Option Dl_info
  /-- Target of the link `/proc/self/exe`; `none` when `readlink` fails with -1. -/
  proc_self_exe : Option (List Char)
  /-- The helper `to_hex_array(addr).data()` of `to_hex_array.hpp`. -/
  to_hex_array : Nat → List Char
  /-- The call `boost::core::scoped_demangled_name(mangled).get()`; `none` is a null
  result (not a mangled name). -/
  demangle : List Char → Option (List Char)
  /-- The child `addr2line flag exec_path addr` behind `addr2line_pipe`: `none` when `pipe` or
  `fork` fails (the stream `p` stays null), else every byte the child writes to its standard
  output before closing it (nothing at all when `execvp` fails). -/
  child : List Char → List Char → List Char → Option (List Char)

/-! ## `detail::addr2line` -/

/-- Conversion to `int` (32 bits, two's complement). -/
def to_int (z : Int) : Int := (z + 2 ^ 31) % 2 ^ 32 - 2 ^ 31

/-- The call `readlink("/proc/self/exe", &res[0], bufsiz)` on the buffer `buf`: -1 on failure,
else the first `min(L, bufsiz)` characters of the `L`-character target are copied to the front
of the buffer and their number is returned. -/
def readlink (env : Env) (buf : List Char) (bufsiz : Nat) : Int × List Char :=
  match env.proc_self_exe with
  | none => (-1, buf)
  | some p => ((min p.length bufsiz : Nat), p.take bufsiz ++ buf.drop (min p.length bufsiz))

/-- The loop of lines 105-108, entered with `res.size() = size`, contents `buf` and the last
`rlin_size`. Yields the final `rlin_size` and buffer; `none` when `res.size() * 4` overflows
`std::size_t` (from `16` the sizes are `16 * 4^j`, so the product wraps to 0: the buffer would
shrink to nothing while `readlink` is told it has `2^64 - 1` bytes). -/
def readlink_loop (env : Env) (size : Nat) (buf : List Char) (rlin_size : Int) :
    Option (Int × List Char) :=
  if rlin_size = to_int ((size : Int) - 1) then
    if 0 < size ∧ size * 4 < 2 ^ 64 then
      let r := readlink env (resize buf (size * 4)) (size * 4 - 1)
      readlink_loop env (size * 4) r.2 (to_int r.1)
    else none
  else some (rlin_size, buf)
termination_by 2 ^ 64 - size
decreasing_by all_goals omega

/-- Outcome of the path lookup at the head of `addr2line` (lines 99-114). -/
inductive exec_path_result where
  /-- No string is produced: an exception or undefined behaviour. -/
  | fault
  /-- The branch `rlin_size == -1`: `addr2line` returns the empty string at once. -/
  | failed
  /-- The path handed to the child process. -/
  | path (res : List Char)
  deriving DecidableEq

/-- Lines 99-114 of `addr2line`: the module path reported by `dladdr`, else the path of the
running executable read into a buffer of 16 bytes that is quadrupled while it is full. -/
def exec_path (env : Env) (addr : Nat) : exec_path_result :=
  let self_exe : exec_path_result :=
    let r := readlink env (resize [] 16) (16 - 1)
    match readlink_loop env 16 r.2 (to_int r.1) with
    | none => .fault
    | some (rlin_size, buf) =>
      if rlin_size = -1 then .failed
      -- a negative `int` converts to a `std::size_t` above `max_size()`: `std::length_error`
      else if rlin_size < 0 then .fault
      else .path (resize buf rlin_size.toNat)
  match env.dladdr addr with
  | some dli =>
    match dli.dli_fname with
    | some fname => .path fname
    | none => self_exe
  | none => self_exe

/-- The stream `FILE* p`: the bytes not yet read and the end-of-file indicator. -/
structure FILE where
  /-- Bytes the child wrote that were not read yet. -/
  pending : List Char
  /-- The indicator tested by `std::feof`. -/
  eof : Bool

/-- Characters stored by one `fgets` that may store `k` more: it stops after a newline, after
`k` characters, or at the end of the stream (third component). -/
def fgets_chars : Nat → List Char → List Char × List Char × Bool
  | 0, s => ([], s, false)
  | _ + 1, [] => ([], [], true)
  | k + 1, c :: s =>
    if c = '\n' then ([c], s, false)
    else
      let r := fgets_chars k s
      (c :: r.1, r.2.1, r.2.2)

/-- The call `std::fgets(data, n, p)`: `none` (a null pointer) when the end of the stream is
met before any character, else the characters stored in `data` before the terminating NUL. -/
def fgets (n : Nat) (p : FILE) : Option (List Char) × FILE :=
  let r := fgets_chars (n - 1) p.pending
  let p1 : FILE := { pending := r.2.1, eof := p.eof || r.2.2 }
  if r.1 = [] then (none, p1) else (some r.1, p1)

/-- The read loop of lines 123-130, `char data[32]`. Every successful `fgets` consumes at least
one byte, so the loop body runs at most `p.pending.length + 1` times; the first argument is
that bound. -/
def read_loop : Nat → FILE → List Char → List Char
  | 0, _, res => res
  | k + 1, p, res =>
    if p.eof then res
    else
      match fgets 32 p with
      | (some data, p1) => read_loop k p1 (res ++ c_str data)
      | (none, _) => res

/-- The trimming loop of lines 133-135; it erases one character per iteration, so it runs at
most `res.size()` times, the first argument. -/
def trim_loop : Nat → List Char → List Char
  | 0, res => res
  | k + 1, res =>
    if res ≠ [] ∧ (res.getLast? = some '\n' ∨ res.getLast? = some '\r') then
      trim_loop k res.dropLast
    else res

/-- Lines 123-137 of `addr2line`: what is returned once the child's output is `out`. -/
def read_and_trim (out : List Char) : List Char :=
  let res := read_loop (out.length + 1) { pending := out, eof := false } []
  trim_loop res.length res

/-- The function `detail::addr2line(flag, addr)`. -/
def addr2line (env : Env) (flag : List Char) (addr : Nat) : Option (List Char) :=
  match exec_path env addr with
  | .fault => none
  | .failed => some []
  | .path res =>
    match env.child flag (c_str res) (env.to_hex_array addr) with
    | none => some []
    | some out => some (read_and_trim out)

/-- The function `detail::try_demangle(mangled)`. -/
def try_demangle (env : Env) (mangled : List Char) : List Char :=
  match env.demangle mangled with
  | some demangled => demangled
  | none => mangled

/-! ## `frame::name`, `frame::source_file`, `frame::source_line` -/

/-- The method `frame::name()` of the frame holding `addr_ = addr`. -/
def frame.name (env : Env) (addr : Nat) : Option (List Char) :=
  let finish (res : List Char) : List Char := if res = "??".data then [] else res
  let by_tool : Option (List Char) :=
    match addr2line env "-fe".data addr with
    | none => none
    | some res =>
      let res := substr res 0 (find_last_of res '\n')
      let res := try_demangle env (c_str res)
      some (finish res)
  match env.dladdr addr with
  | some dli =>
    match dli.dli_sname with
    | some sname => some (finish (try_demangle env sname))
    | none => by_tool
  | none => by_tool

/-- The method `frame::source_file()`. -/
def frame.source_file (env : Env) (addr : Nat) : Option (List Char) :=
  match addr2line env "-e".data addr with
  | none => none
  | some res =>
    let res := substr res 0 (find_last_of res ':')
    some (if res = "??".data then [] else res)

/-- The method `frame::source_line()`. -/
def frame.source_line (env : Env) (addr : Nat) : Option Nat :=
  match addr2line env "-e".data addr with
  | none => none
  | some res =>
    match find_last_of res ':' with
    | none => some 0
    | some last =>
      match try_lexical_convert (substr res (last + 1) none) with
      | none => some 0
      | some line_num => some line_num

/-! ## `backend::to_string` -/

/-- The function `backend::to_string(const void* addr)`. -/
def backend.to_string (env : Env) (addr : Nat) : Option (List Char) :=
  match frame.name env addr with
  | none => none
  | some name =>
    let res := if name = [] then env.to_hex_array addr else name
    match addr2line env "-Cpe".data addr with
    | none => none
    | some source_line =>
      if source_line ≠ [] ∧ source_line.head? ≠ some '?' then
        some (res ++ " at ".data ++ source_line)
      else
        match env.dladdr addr with
        | some dli =>
          match dli.dli_sname with
          | some _ =>
            match dli.dli_fname with
            | some fname => some (res ++ " in ".data ++ fname)
            | none => none
          | none => some res
        | none => some res

/-- The loop of `backend::to_string(const frame* frames, std::size_t size)` from index `i` on,
with `k = size - i` iterations left and `res` built so far. -/
def to_string_loop (env : Env) (frames : List Nat) : Nat → Nat → List Char → Option (List Char)
  | 0, _, res => some res
  | k + 1, i, res =>
    let res := if i < 10 then res ++ [' '] else res
    let res := res ++ lexical_cast_array i
    let res := res ++ ['#']
    let res := res ++ [' ']
    match backend.to_string env (frames.getD i 0) with
    | none => none
    | some s => to_string_loop env frames k (i + 1) (res ++ s ++ ['\n'])

/-- The function `backend::to_string(const frame* frames, std::size_t size)`; the frame at
index `i` holds the address `frames[i]`. The call `res.reserve(64 * size)` changes the
capacity only. -/
def backend.to_string_frames (env : Env) (frames : List Nat) (size : Nat) :
    Option (List Char) :=
  to_string_loop env frames size 0 []

/-! ## `backend::collect` -/

/-- Memory around the buffer `memory`, in `void*` words: `cell i` is the word `memory[i]`, so
the buffer of capacity `size` is the indices `0 .. size - 1`; `touched` lists the indices read
or written so far, latest first. -/
structure Memory where
  /-- The word at each index relative to `memory`. -/
  cell : Int → Nat
  /-- Indices accessed so far. -/
  touched : List Int

/-- Storing `v` at index `i`. -/
def Memory.write (m : Memory) (i : Int) (v : Nat) : Memory :=
  { cell := fun j => if j = i then v else m.cell j, touched := i :: m.touched }

/-- Loading the word at index `i`. -/
def Memory.read (m : Memory) (i : Int) : Nat × Memory :=
  (m.cell i, { m with touched := i :: m.touched })

/-- The structure `unwind_state`, its pointers as indices relative to `memory`. -/
structure unwind_state where
  /-- Next slot to fill. -/
  current : Int
  /-- One past the last slot. -/
  end_ : Int

/-- The function `unwind_callback`, called on a frame whose `_Unwind_GetIP` is `ip`; the
boolean is `true` for `_URC_END_OF_STACK` and `false` for `_URC_NO_REASON`. -/
def unwind_callback (ip : Nat) (state : unwind_state) (m : Memory) :
    Bool × unwind_state × Memory :=
  let m := m.write state.current ip
  let state := { state with current := state.current + 1 }
  let r := m.read (state.current - 1)
  (r.1 = 0 || state.current = state.end_, state, r.2)

/-- The call `_Unwind_Backtrace(&unwind_callback, &state)` on a stack whose frames report the
instruction pointers `stack`, innermost first: the callback runs on each frame in turn until it
returns something other than `_URC_NO_REASON` or the frames are exhausted. -/
def unwind_backtrace : List Nat → unwind_state → Memory → unwind_state × Memory
  | [], state, m => (state, m)
  | ip :: rest, state, m =>
    let r := unwind_callback ip state m
    if r.1 then (r.2.1, r.2.2) else unwind_backtrace rest r.2.1 r.2.2

/-- The function `backend::collect(memory, size)`: the returned count and the memory left
behind. `frames_count - 1` is computed in `std::size_t`; at `frames_count = 0` it is
`2^64 - 1`, and `memory + (2^64 - 1)` is the word just before the buffer, index `-1`. -/
def backend.collect (stack : List Nat) (m : Memory) (size : Nat) : Nat × Memory :=
  if size = 0 then (0, m)
  else
    let r := unwind_backtrace stack { current := 0, end_ := size } m
    let frames_count : Nat := (r.1.current - 0).toNat
    let w := r.2.read ((frames_count : Int) - 1)
    if w.1 = 0 then ((frames_count + 2 ^ 64 - 1) % 2 ^ 64, w.2) else (frames_count, w.2)

/-! ## Auxiliary definitions used in the statements -/

/-- Number of addresses the stack delivers before its first null address. -/
def before_null (stack : List Nat) : Nat := (stack.takeWhile (fun a => a != 0)).length

/-- Memory after the callback stored `ip` at index `c` and read it back. -/
def after_callback (m : Memory) (c : Int) (ip : Nat) : Memory :=
  { cell := fun j => if j = c then ip else m.cell j, touched := c :: c :: m.touched }

/-- The text `backend::to_string(frames, size)` is to hold for the frame of index `i` whose
address is described by `d`: one space when `i < 10`, the decimal index, `# `, the
description and a newline. -/
def numbered_line (i : Nat) (d : List Char) : List Char :=
  (if i < 10 then [' '] else []) ++ lexical_cast_array i ++ "# ".data ++ d ++ ['\n']

/-! ## Sample environments -/

/-- Modelled from the spec: the helper `to_hex_array` of `to_hex_array.hpp` is not part of the
sources at hand; the spec calls its result the hexadecimal rendering of the address. Here
`0x` followed by the hexadecimal digits. -/
def sample_hex (addr : Nat) : List Char := '0' :: 'x' :: Nat.toDigits 16 addr

/-- A loader that knows the module of every address but no symbol. -/
def sample_dladdr_module (_ : Nat) : Option Dl_info :=
  some { dli_fname := some "/lib/libfoo.so".data, dli_sname := none }

/-- A child that prints the markers of `addr2line` for an unknown address: `??` for the
function when `-f` is given, then `??:0`. -/
def sample_child_unknown (flag _ _ : List Char) : Option (List Char) :=
  if flag = "-fe".data then some "??\n??:0\n".data else some "??:0\n".data

/-- An environment where every address lies in `/lib/libfoo.so`, has no symbol and is unknown
to `addr2line`. -/
def sample_env_module : Env where
  dladdr := sample_dladdr_module
  proc_self_exe := some "/usr/local/bin/some_long_application".data
  to_hex_array := sample_hex
  demangle := fun _ => none
  child := sample_child_unknown

/-- The characters erased by the trimming loop of `addr2line`. -/
def is_line_end (c : Char) : Bool := c == '\n' || c == '\r'

/-- An environment for a statically linked executable: `dladdr` knows no address, the
executable is `/usr/local/bin/some_long_application`, and `addr2line` knows nothing. -/
def sample_env_static : Env where
  dladdr := fun _ => none
  proc_self_exe := some "/usr/local/bin/some_long_application".data
  to_hex_array := sample_hex
  demangle := fun _ => none
  child := sample_child_unknown

/-- As `sample_env_static`, but `/proc/self/exe` cannot be read. -/
def sample_env_no_proc : Env where
  dladdr := fun _ => none
  proc_self_exe := none
  to_hex_array := sample_hex
  demangle := fun _ => none
  child := sample_child_unknown

/-- A child that prints a single question mark where `addr2line` would print a name or a
file. -/
def sample_child_question (flag _ _ : List Char) : Option (List Char) :=
  if flag = "-fe".data then some "?\n?:0\n".data else some "?:0\n".data

/-- As `sample_env_module`, with the child `sample_child_question`. -/
def sample_env_question : Env where
  dladdr := sample_dladdr_module
  proc_self_exe := some "/usr/local/bin/some_long_application".data
  to_hex_array := sample_hex
  demangle := fun _ => none
  child := sample_child_question

/-- A valid unsigned decimal number for `std::size_t`: a non-empty run of decimal digits whose
value is below `2^64`. -/
def valid_unsigned_decimal (s : List Char) : Prop :=
  s ≠ [] ∧ s.all Char.isDigit = true ∧ s.foldl (fun a c => 10 * a + (c.toNat - 48)) 0 < 2 ^ 64

instance (s : List Char) : Decidable (valid_unsigned_decimal s) := by
  unfold valid_unsigned_decimal
  infer_instance

/-- A child that reports the line with a discriminator, as `addr2line` does. -/
def sample_child_discriminator (_ _ _ : List Char) : Option (List Char) :=
  some "/src/main.cpp:12 (discriminator 3)\n".data

/-- As `sample_env_module`, with the child `sample_child_discriminator`. -/
def sample_env_discriminator : Env where
  dladdr := sample_dladdr_module
  proc_self_exe := some "/usr/local/bin/some_long_application".data
  to_hex_array := sample_hex
  demangle := fun _ => none
  child := sample_child_discriminator

/-- A child that reports a negative line. -/
def sample_child_negative (_ _ _ : List Char) : Option (List Char) :=
  some "/src/main.cpp:-1\n".data

/-- As `sample_env_module`, with the child `sample_child_negative`. -/
def sample_env_negative : Env where
  dladdr := sample_dladdr_module
  proc_self_exe := some "/usr/local/bin/some_long_application".data
  to_hex_array := sample_hex
  demangle := fun _ => none
  child := sample_child_negative

/-- A child that reports a Windows-style file, with a colon of its own, at line 42. -/
def sample_child_located (_ _ _ : List Char) : Option (List Char) :=
  some ("C:/src/main.cpp".data ++ ':' :: Nat.toDigits 10 42)

/-- As `sample_env_module`, with the child `sample_child_located`. -/
def sample_env_located : Env where
  dladdr := sample_dladdr_module
  proc_self_exe := some "/usr/local/bin/some_long_application".data
  to_hex_array := sample_hex
  demangle := fun _ => none
  child := sample_child_located

/-! ## Theorems about `backend::collect` -/

theorem before_null_cons_zero (rest : List Nat) : before_null (0 :: rest) = 0 := by
  simp [before_null]

theorem before_null_cons_pos (ip : Nat) (rest : List Nat) (h : ip ≠ 0) :
    before_null (ip :: rest) = before_null rest + 1 := by
  simp [before_null, List.takeWhile_cons, h]


theorem unwind_backtrace_cons (ip : Nat) (rest : List Nat) (c e : Int) (m : Memory) :
    unwind_backtrace (ip :: rest) { current := c, end_ := e } m =
      if ip = 0 ∨ c + 1 = e then ({ current := c + 1, end_ := e }, after_callback m c ip)
      else unwind_backtrace rest { current := c + 1, end_ := e } (after_callback m c ip) := by
  simp only [unwind_backtrace, unwind_callback, Memory.write, Memory.read, after_callback]
  have hc : c + 1 - 1 = c := by omega
  simp only [hc, if_true, Bool.or_eq_true, decide_eq_true_eq]

theorem unwind_backtrace_spec (stack : List Nat) :
    ∀ (c e : Nat) (m : Memory), c < e →
      ((before_null stack < stack.length ∧ before_null stack < e - c) →
        (unwind_backtrace stack { current := c, end_ := e } m).1.current
            = (c : Int) + before_null stack + 1
        ∧ (unwind_backtrace stack { current := c, end_ := e } m).2.cell
            ((c : Int) + before_null stack) = 0)
      ∧ (¬ (before_null stack < stack.length ∧ before_null stack < e - c) →
        (unwind_backtrace stack { current := c, end_ := e } m).1.current
            = (c : Int) + (min (e - c) (before_null stack) : Nat))
      ∧ (∀ j : Nat, j < e - c → j < before_null stack →
          (unwind_backtrace stack { current := c, end_ := e } m).2.cell ((c : Int) + j)
            = stack.getD j 0 ∧ stack.getD j 0 ≠ 0)
      ∧ (∀ i : Int, i < c →
          (unwind_backtrace stack { current := c, end_ := e } m).2.cell i = m.cell i)
      ∧ (∀ i ∈ (unwind_backtrace stack { current := c, end_ := e } m).2.touched,
          i ∈ m.touched ∨ ((c : Int) ≤ i ∧ i < e)) := by
  induction stack with
  | nil =>
    intro c e m _
    simp only [unwind_backtrace, before_null, List.takeWhile_nil, List.length_nil]
    refine ⟨fun h => by omega, fun _ => by simp, fun j _ hj => by omega, fun _ _ => trivial,
      fun i hi => Or.inl hi⟩
  | cons ip rest ih =>
    intro c e m hce
    rw [unwind_backtrace_cons]
    by_cases hip : ip = 0
    · subst hip
      simp only [true_or, if_true, before_null_cons_zero, after_callback]
      refine ⟨fun _ => ⟨by simp, by simp⟩, ?_, ?_, ?_, ?_⟩
      · intro h; exact absurd ⟨by simp, by omega⟩ h
      · intro j _ hj; omega
      · intro i hi
        have : i ≠ (c : Int) := by omega
        simp [this]
      · intro i hi
        simp only [List.mem_cons] at hi
        rcases hi with h | h | h
        · right; omega
        · right; omega
        · left; exact h
    · have hk := before_null_cons_pos ip rest hip
      rw [hk]
      by_cases hend : c + 1 = e
      · have hendI : (c : Int) + 1 = e := by exact_mod_cast hend
        simp only [hendI, or_true, if_true, after_callback]
        refine ⟨fun h => by omega, ?_, ?_, ?_, ?_⟩
        · intro _
          have : min (e - c) (before_null rest + 1) = 1 := by omega
          rw [this]; simp [hendI]
        · intro j hj _
          have : j = 0 := by omega
          subst this
          simp [hip]
        · intro i hi
          have : i ≠ (c : Int) := by omega
          simp [this]
        · intro i hi
          simp only [List.mem_cons] at hi
          rcases hi with h | h | h
          · right; omega
          · right; omega
          · left; exact h
      · have hendI : ¬ ((c : Int) + 1 = e) := by exact_mod_cast hend
        simp only [hip, hendI, or_self, if_false]
        obtain ⟨h1, h2, h3, h4, h5⟩ := ih (c + 1) e (after_callback m c ip) (by omega)
        have hcast : ((c + 1 : Nat) : Int) = (c : Int) + 1 := by push_cast; rfl
        rw [hcast] at h1 h2 h3 h4 h5
        refine ⟨?_, ?_, ?_, ?_, ?_⟩
        · intro h
          obtain ⟨a, b⟩ := h1 ⟨by simpa using h.1, by omega⟩
          refine ⟨?_, ?_⟩
          · rw [a]; push_cast; omega
          · rw [← b]; congr 1; push_cast; omega
        · intro h
          have := h2 (fun h' => h ⟨by simpa using h'.1, by omega⟩)
          rw [this]
          have : min (e - c) (before_null rest + 1) = min (e - (c + 1)) (before_null rest) + 1 := by
            omega
          rw [this]; push_cast; omega
        · intro j hj hj2
          cases j with
          | zero =>
            have := h4 c (by omega)
            simp only [after_callback, if_true] at this
            simp only [after_callback]
            simp [this, hip]
          | succ j =>
            have := h3 j (by omega) (by omega)
            simp only [List.getD_cons_succ]
            refine ⟨?_, this.2⟩
            rw [← this.1]; congr 1; push_cast; omega
        · intro i hi
          have := h4 i (by omega)
          rw [this]
          have : i ≠ (c : Int) := by omega
          simp [after_callback, this]
        · intro i hi
          rcases h5 i hi with h | h
          · simp only [after_callback, List.mem_cons] at h
            rcases h with h | h | h
            · right; omega
            · right; omega
            · left; exact h
          · right; omega

theorem collect_eq (stack : List Nat) (m : Memory) (size : Nat) (h : size ≠ 0) :
    backend.collect stack m size =
      (if (unwind_backtrace stack { current := 0, end_ := size } m).2.cell
            ((((unwind_backtrace stack { current := 0, end_ := size } m).1.current - 0).toNat : Int) - 1) = 0
        then (((unwind_backtrace stack { current := 0, end_ := size } m).1.current - 0).toNat
                + 2 ^ 64 - 1) % 2 ^ 64
        else ((unwind_backtrace stack { current := 0, end_ := size } m).1.current - 0).toNat,
       { (unwind_backtrace stack { current := 0, end_ := size } m).2 with
         touched := ((((unwind_backtrace stack { current := 0, end_ := size } m).1.current - 0).toNat
                      : Int) - 1)
           :: (unwind_backtrace stack { current := 0, end_ := size } m).2.touched }) := by
  simp only [backend.collect, h, if_false, Memory.read]
  split <;> rfl

/-- C1: on a stack that delivers at least one frame, `backend::collect` returns
`min(N, k)` for capacity `N`, `k` being the number of addresses delivered before the first
null one (all of them when none is null). The count is at most `N`, is 0 when `N` is 0, leaves
out a null terminator that was written (it sits at index `k`), every entry below the count is
the non-null address delivered at that position, and only indices `0 .. N - 1` of the buffer
are accessed. -/
theorem collect_returns_min (stack : List Nat) (m : Memory) (size : Nat)
    (hsize : size < 2 ^ 64) (hstack : stack ≠ []) :
    (backend.collect stack m size).1 = min size (before_null stack)
    ∧ (backend.collect stack m size).1 ≤ size
    ∧ (size = 0 → (backend.collect stack m size).1 = 0)
    ∧ (before_null stack < size → before_null stack < stack.length →
        (backend.collect stack m size).2.cell (before_null stack) = 0)
    ∧ (∀ i : Nat, i < (backend.collect stack m size).1 →
        (backend.collect stack m size).2.cell i = stack.getD i 0
        ∧ (backend.collect stack m size).2.cell i ≠ 0)
    ∧ (∀ i ∈ (backend.collect stack m size).2.touched,
        i ∈ m.touched ∨ ((0 : Int) ≤ i ∧ i < size)) := by
  by_cases h0 : size = 0
  · subst h0
    have h : backend.collect stack m 0 = (0, m) := by simp [backend.collect]
    rw [h]
    exact ⟨by simp, le_refl _, fun _ => rfl, fun h => by omega, fun i hi => by omega,
      fun i hi => Or.inl hi⟩
  · have hpos : 0 < size := Nat.pos_of_ne_zero h0
    obtain ⟨hA, hB, hC, -, hE⟩ := unwind_backtrace_spec stack 0 size m hpos
    simp only [Nat.cast_zero, zero_add, Nat.sub_zero] at hA hB hC hE
    rw [collect_eq stack m size h0]
    simp only [sub_zero]
    by_cases hcase : before_null stack < stack.length ∧ before_null stack < size
    · obtain ⟨hcur, hcell⟩ := hA hcase
      have hfc : (unwind_backtrace stack { current := 0, end_ := size } m).1.current.toNat
          = before_null stack + 1 := by rw [hcur]; omega
      have hidx : (((before_null stack + 1 : Nat) : Int) - 1) = (before_null stack : Int) := by
        push_cast; omega
      rw [hfc, hidx]
      simp only [hcell, if_true]
      have hcnt : (before_null stack + 1 + 2 ^ 64 - 1) % 2 ^ 64 = before_null stack := by omega
      rw [hcnt]
      refine ⟨by omega, by omega, fun h => absurd h h0, fun _ _ => trivial, ?_, ?_⟩
      · intro i hi
        have := hC i (by omega) hi
        exact ⟨this.1, by rw [this.1]; exact this.2⟩
      · intro i hi
        simp only [List.mem_cons] at hi
        rcases hi with h | h
        · right; omega
        · exact hE i h
    · have hcur := hB hcase
      have hk : 0 < before_null stack := by
        rcases Nat.eq_zero_or_pos (before_null stack) with hz | hp
        · exact absurd ⟨by rw [hz]; exact List.length_pos.mpr hstack, by omega⟩ hcase
        · exact hp
      have hfc : (unwind_backtrace stack { current := 0, end_ := size } m).1.current.toNat
          = min size (before_null stack) := by rw [hcur]; omega
      have hlast := hC (min size (before_null stack) - 1) (by omega) (by omega)
      have hidx : (((min size (before_null stack) : Nat) : Int) - 1)
          = ((min size (before_null stack) - 1 : Nat) : Int) := by omega
      rw [hfc, hidx]
      have hne : ¬ (unwind_backtrace stack { current := 0, end_ := size } m).2.cell
          ((min size (before_null stack) - 1 : Nat) : Int) = 0 := by
        rw [hlast.1]; exact hlast.2
      simp only [hne, if_false]
      refine ⟨trivial, by omega, fun h => absurd h h0, fun h1 h2 => absurd ⟨h2, h1⟩ hcase, ?_, ?_⟩
      · intro i hi
        have := hC i (by omega) (by omega)
        exact ⟨this.1, by rw [this.1]; exact this.2⟩
      · intro i hi
        simp only [List.mem_cons] at hi
        rcases hi with h | h
        · right; omega
        · exact hE i h

theorem collect_returns_min_witness :
    (3 : Nat) < 2 ^ 64 ∧ [5, 6, 0, 7] ≠ ([] : List Nat)
    ∧ (backend.collect [5, 6, 0, 7] { cell := fun _ => 9, touched := [] } 3).1
        = min 3 (before_null [5, 6, 0, 7]) :=
  ⟨by decide, by decide,
   (collect_returns_min [5, 6, 0, 7] { cell := fun _ => 9, touched := [] } 3
      (by decide) (by decide)).1⟩

/-- C9: for every capacity `n + 1 ≥ 1`, when no frame is delivered `backend::collect` reads
the word just before the buffer (index `-1`, outside `0 .. n`); it returns `2^64 - 1` when
that word is null and 0 otherwise. -/
theorem collect_unwalkable_reads_before_buffer (m : Memory) (n : Nat) :
    (backend.collect [] m (n + 1)).2.touched = -1 :: m.touched
    ∧ (backend.collect [] m (n + 1)).1 = (if m.cell (-1) = 0 then 2 ^ 64 - 1 else 0)
    ∧ (backend.collect [] { cell := fun _ => 0, touched := [] } 1).1 = 18446744073709551615 := by
  refine ⟨?_, ?_, by decide⟩
  · rw [collect_eq [] m (n + 1) (by omega)]
    simp [unwind_backtrace]
  · rw [collect_eq [] m (n + 1) (by omega)]
    simp [unwind_backtrace]

/-! ## Theorems about `backend::to_string(frames, size)` -/

theorem to_string_loop_eq (env : Env) (frames : List Nat) (descr : Nat → List Char) :
    ∀ (k i : Nat) (res : List Char),
      (∀ j, i ≤ j → j < i + k → backend.to_string env (frames.getD j 0) = some (descr j)) →
      to_string_loop env frames k i res
        = some (res ++ ((List.range' i k).map (fun j => numbered_line j (descr j))).flatten) := by
  intro k
  induction k with
  | zero => intro i res _; simp [to_string_loop]
  | succ k ih =>
    intro i res h
    have hi := h i (le_refl i) (by omega)
    have hrest := ih (i + 1)
      ((if i < 10 then res ++ [' '] else res) ++ lexical_cast_array i ++ ['#'] ++ [' ']
        ++ descr i ++ ['\n'])
      (fun j h1 h2 => h j (by omega) (by omega))
    simp only [to_string_loop, hi, hrest, List.range'_succ, List.map_cons, List.flatten_cons,
      numbered_line]
    by_cases h10 : i < 10 <;> simp [h10]

/-- C2: for frames of length `n` whose addresses are rendered `descr 0 .. descr (n-1)` by
`backend::to_string(addr)`, `backend::to_string(frames, n)` is the concatenation, for
`i = 0 .. n-1` in order, of one space when `i < 10`, the decimal digits of `i`, `# `, the
rendering of frame `i` and a newline. Indices 0 and 1 start their line with ` 0# ` and ` 1# `,
index 10 with `10# `, and no frame gives the empty string. -/
theorem to_string_frames_eq (env : Env) (frames : List Nat) (descr : Nat → List Char)
    (h : ∀ i, i < frames.length → backend.to_string env (frames.getD i 0) = some (descr i)) :
    backend.to_string_frames env frames frames.length
      = some (((List.range frames.length).map (fun i =>
          (if i < 10 then [' '] else []) ++ Nat.toDigits 10 i ++ ['#', ' '] ++ descr i
            ++ ['\n'])).flatten)
    ∧ backend.to_string_frames env [] 0 = some []
    ∧ (∀ d, numbered_line 0 d = " 0# ".data ++ d ++ "\n".data)
    ∧ (∀ d, numbered_line 1 d = " 1# ".data ++ d ++ "\n".data)
    ∧ (∀ d, numbered_line 10 d = "10# ".data ++ d ++ "\n".data) := by
  refine ⟨?_, rfl, fun d => rfl, fun d => rfl, fun d => rfl⟩
  have := to_string_loop_eq env frames descr frames.length 0 []
    (fun j _ hj => h j (by omega))
  rw [backend.to_string_frames, this, List.range_eq_range']
  simp [numbered_line, lexical_cast_array]

theorem to_string_frames_eq_witness :
    backend.to_string_frames sample_env_module [1, 2, 3, 4, 5, 6, 7, 8, 9, 10, 11] 11
      = some (" 0# 0x1\n 1# 0x2\n 2# 0x3\n 3# 0x4\n 4# 0x5\n 5# 0x6\n 6# 0x7\n 7# 0x8\n"
          ++ " 8# 0x9\n 9# 0xa\n10# 0xb\n").data :=
  (to_string_frames_eq sample_env_module [1, 2, 3, 4, 5, 6, 7, 8, 9, 10, 11]
    (fun i => sample_hex (i + 1)) (by decide)).1.trans (by decide)

/-! ## Theorems about the read and trim loops of `detail::addr2line` -/

theorem fgets_chars_spec : ∀ (k : Nat) (s : List Char),
    (fgets_chars k s).1 ++ (fgets_chars k s).2.1 = s
    ∧ ((fgets_chars k s).1 = [] → k = 0 ∨ s = [])
    ∧ ((fgets_chars k s).2.2 = true → (fgets_chars k s).2.1 = []) := by
  intro k
  induction k with
  | zero => intro s; simp [fgets_chars]
  | succ k ih =>
    intro s
    cases s with
    | nil => simp [fgets_chars]
    | cons c s =>
      obtain ⟨h1, -, h3⟩ := ih s
      by_cases hc : c = '\n'
      · simp [fgets_chars, hc]
      · simp only [fgets_chars, hc, if_false]
        exact ⟨by simp [h1], by simp, h3⟩

theorem c_str_of_no_nul (s : List Char) (h : NUL ∉ s) : c_str s = s := by
  unfold c_str
  rw [List.takeWhile_eq_self_iff]
  intro c hc
  have : c ≠ NUL := fun e => h (e ▸ hc)
  simpa using this

theorem read_loop_eq : ∀ (fuel : Nat) (p : FILE) (res : List Char),
    p.pending.length < fuel → (p.eof = true → p.pending = []) → NUL ∉ p.pending →
    read_loop fuel p res = res ++ p.pending := by
  intro fuel
  induction fuel with
  | zero => intro p res h; omega
  | succ k ih =>
    intro p res hlen heof hnul
    by_cases he : p.eof = true
    · simp [read_loop, he, heof he]
    · obtain ⟨h1, h2, h3⟩ := fgets_chars_spec 31 p.pending
      have he2 : p.eof = false := by simpa using he
      by_cases hd : (fgets_chars 31 p.pending).1 = []
      · have hp : p.pending = [] := by
          rcases h2 hd with h | h
          · omega
          · exact h
        simp [read_loop, he2, fgets, hp, fgets_chars]
      · have hsub : ∀ c ∈ (fgets_chars 31 p.pending).1, c ∈ p.pending := by
          intro c hc; rw [← h1]; exact List.mem_append_left _ hc
        have hsub2 : ∀ c ∈ (fgets_chars 31 p.pending).2.1, c ∈ p.pending := by
          intro c hc; rw [← h1]; exact List.mem_append_right _ hc
        have hlen1 : 0 < (fgets_chars 31 p.pending).1.length := List.length_pos.mpr hd
        have hlen2 : (fgets_chars 31 p.pending).1.length + (fgets_chars 31 p.pending).2.1.length
            = p.pending.length := by rw [← List.length_append, h1]
        have hrec := ih
          { pending := (fgets_chars 31 p.pending).2.1,
            eof := p.eof || (fgets_chars 31 p.pending).2.2 }
          (res ++ c_str (fgets_chars 31 p.pending).1)
          (by simp only; omega)
          (by simp only [he2, Bool.false_or]; exact h3)
          (fun h => hnul (hsub2 _ h))
        simp only [read_loop, he2, fgets, hd, if_false, Nat.add_one_sub_one]
        simp only [he2] at hrec
        rw [hrec, c_str_of_no_nul _ (fun h => hnul (hsub _ h)), List.append_assoc, h1]
        simp

theorem trim_loop_eq : ∀ (k : Nat) (res : List Char), res.length ≤ k →
    trim_loop k res = res.rdropWhile is_line_end := by
  intro k
  induction k with
  | zero =>
    intro res h
    have : res = [] := List.length_eq_zero.mp (by omega)
    simp [this, trim_loop]
  | succ k ih =>
    intro res h
    rcases List.eq_nil_or_concat res with hnil | ⟨l, x, hx⟩
    · simp [hnil, trim_loop]
    · rw [List.concat_eq_append] at hx
      subst hx
      have hl : l.length ≤ k := by simp at h; omega
      by_cases hp : x = '\n' ∨ x = '\r'
      · have hp2 : is_line_end x = true := by
          rcases hp with h | h <;> simp [is_line_end, h]
        rw [List.rdropWhile_concat_pos _ _ _ hp2, ← ih l hl]
        simp [trim_loop, hp]
      · have hp2 : ¬ is_line_end x = true := by
          simpa [is_line_end] using hp
        rw [List.rdropWhile_concat_neg _ _ _ hp2]
        simp [trim_loop, hp]

theorem rdropWhile_removed (p : Char → Bool) (l : List Char) :
    ∀ c ∈ l.drop (l.rdropWhile p).length, p c = true := by
  induction l using List.reverseRecOn with
  | nil => simp
  | append_singleton l x ih =>
    by_cases hp : p x = true
    · rw [List.rdropWhile_concat_pos _ _ _ hp]
      have hle : (l.rdropWhile p).length ≤ l.length := ( List.rdropWhile_prefix p l).length_le
      rw [List.drop_append_of_le_length hle]
      intro c hc
      rcases List.mem_append.mp hc with h | h
      · exact ih c h
      · simp at h; rw [h]; exact hp
    · rw [List.rdropWhile_concat_neg _ _ _ hp]
      simp

theorem read_and_trim_eq (out : List Char) (h : NUL ∉ out) :
    read_and_trim out = out.rdropWhile is_line_end := by
  unfold read_and_trim
  have := read_loop_eq (out.length + 1) { pending := out, eof := false } []
    (by simp) (by simp) h
  simp only [this, List.nil_append]
  exact trim_loop_eq _ _ (le_refl _)

/-- C8: when the child was started on the path `p` and writes `out`, a byte string without
NUL, `detail::addr2line` returns `out` without its maximal trailing run of line feeds and
carriage returns. The chunked read loop rebuilds `out` exactly; the returned text is a prefix of
`out`, what is cut off consists of `\n` and `\r` only, and the text does not end in `\n` or
`\r`. -/
theorem addr2line_returns_trimmed_output (env : Env) (flag : List Char) (addr : Nat)
    (p out : List Char) (hpath : exec_path env addr = exec_path_result.path p)
    (hchild : env.child flag (c_str p) (env.to_hex_array addr) = some out)
    (hnul : NUL ∉ out) :
    read_loop (out.length + 1) { pending := out, eof := false } [] = out
    ∧ ∃ res, addr2line env flag addr = some res
      ∧ res = out.rdropWhile (fun c => c == '\n' || c == '\r')
      ∧ res <+: out
      ∧ (∀ c ∈ out.drop res.length, c = '\n' ∨ c = '\r')
      ∧ res.getLast? ≠ some '\n' ∧ res.getLast? ≠ some '\r' := by
  have hread := read_loop_eq (out.length + 1) { pending := out, eof := false } []
    (by simp) (by simp) hnul
  have hpre : out.rdropWhile is_line_end <+: out := List.rdropWhile_prefix _ _
  refine ⟨by simpa using hread, out.rdropWhile is_line_end, ?_, rfl, hpre, ?_, ?_⟩
  · simp [addr2line, hpath, hchild, read_and_trim_eq out hnul]
  · intro c hc
    have := rdropWhile_removed is_line_end out c hc
    simpa [is_line_end] using this
  · have key : ∀ x, (out.rdropWhile is_line_end).getLast? = some x → is_line_end x = false := by
      intro x hx
      have hne : out.rdropWhile is_line_end ≠ [] := by
        intro e; rw [e] at hx; simp at hx
      have := List.rdropWhile_last_not is_line_end out hne
      rw [List.getLast?_eq_getLast _ hne] at hx
      simp only [Option.some.injEq] at hx
      rw [hx] at this
      simpa using this
    exact ⟨fun e => by simpa [is_line_end] using key _ e,
           fun e => by simpa [is_line_end] using key _ e⟩

theorem addr2line_returns_trimmed_output_witness :
    exec_path sample_env_module 7 = exec_path_result.path "/lib/libfoo.so".data
    ∧ NUL ∉ "??:0\n".data
    ∧ addr2line sample_env_module "-e".data 7 = some "??:0".data := by
  have h := addr2line_returns_trimmed_output sample_env_module "-e".data 7
    "/lib/libfoo.so".data "??:0\n".data rfl rfl (by decide)
  obtain ⟨-, res, h1, h2, -⟩ := h
  refine ⟨rfl, by decide, ?_⟩
  rw [h1, h2]
  decide

/-! ## Theorems about the path lookup of `detail::addr2line` -/

theorem to_int_of_small (z : Int) (h0 : 0 ≤ z) (h1 : z < 2 ^ 31) : to_int z = z := by
  unfold to_int
  norm_num at h1 ⊢
  omega

theorem to_int_ne_neg_one (z : Int) (h0 : 0 ≤ z) (h1 : z < 2 ^ 32 - 1) : to_int z ≠ -1 := by
  unfold to_int
  norm_num at h1 ⊢
  omega

theorem to_int_full : to_int ((2 ^ 32 : Nat) - 1) = -1 := by
  unfold to_int
  norm_num

theorem readlink_some (env : Env) (p buf : List Char) (bufsiz : Nat)
    (hexe : env.proc_self_exe = some p) :
    readlink env buf bufsiz
      = (((min p.length bufsiz : Nat) : Int),
          p.take bufsiz ++ buf.drop (min p.length bufsiz)) := by
  simp [readlink, hexe]

theorem readlink_loop_spec (env : Env) (p : List Char) (hexe : env.proc_self_exe = some p)
    (hlen : p.length < 2 ^ 32 - 1) :
    ∀ (n size : Nat) (buf : List Char), size * 4 ^ n = 2 ^ 32 →
      buf.take (min p.length (size - 1)) = p.take (size - 1) →
      ∃ buf1, readlink_loop env size buf (to_int ((min p.length (size - 1) : Nat) : Int))
          = some (to_int p.length, buf1)
        ∧ buf1.take p.length = p := by
  intro n
  induction n with
  | zero =>
    intro size buf hsize hbuf
    have hs : size = 2 ^ 32 := by simpa using hsize
    subst hs
    have hmin : min p.length (2 ^ 32 - 1) = p.length := by omega
    rw [hmin] at hbuf ⊢
    refine ⟨buf, ?_, ?_⟩
    · rw [readlink_loop]
      have h1 : to_int ((p.length : Nat) : Int) ≠ -1 :=
        to_int_ne_neg_one _ (by omega) (by norm_num at hlen ⊢; omega)
      have h2 : to_int (((2 ^ 32 : Nat) : Int) - 1) = -1 := to_int_full
      rw [h2]
      simp [h1]
    · rw [hbuf]
      exact List.take_of_length_le (by omega)
  | succ n ih =>
    intro size buf hsize hbuf
    have h4 : (size * 4) * 4 ^ n = 2 ^ 32 := by rw [← hsize, pow_succ]; ring
    have hpow : 1 ≤ 4 ^ n := Nat.one_le_pow _ _ (by norm_num)
    have hle : size * 4 ≤ 2 ^ 32 := by
      calc size * 4 = size * 4 * 1 := by ring
        _ ≤ size * 4 * 4 ^ n := Nat.mul_le_mul_left _ hpow
        _ = 2 ^ 32 := h4
    have hpos : 0 < size := by
      rcases Nat.eq_zero_or_pos size with h | h
      · rw [h] at hsize; simp at hsize
      · exact h
    norm_num at hle
    by_cases hfull : size - 1 ≤ p.length
    · have hmin : min p.length (size - 1) = size - 1 := by omega
      rw [hmin]
      have hcast : (((size - 1 : Nat) : Int)) = (size : Int) - 1 := by omega
      rw [readlink_loop, hcast]
      have hcond : 0 < size ∧ size * 4 < 2 ^ 64 := ⟨hpos, by norm_num; omega⟩
      simp only [if_true, hcond, and_self]
      rw [readlink_some env p _ _ hexe]
      simp only
      apply ih (size * 4) _ h4
      rw [List.take_append_eq_append_take]
      simp
    · have hmin : min p.length (size - 1) = p.length := by omega
      rw [hmin] at hbuf ⊢
      refine ⟨buf, ?_, ?_⟩
      · rw [readlink_loop]
        have h1 : to_int ((p.length : Nat) : Int) = p.length :=
          to_int_of_small _ (by omega) (by norm_num; omega)
        have h2 : to_int ((size : Int) - 1) = (size : Int) - 1 :=
          to_int_of_small _ (by omega) (by norm_num; omega)
        rw [h1, h2]
        have : ¬ ((p.length : Int) = (size : Int) - 1) := by omega
        simp [this]
      · rw [hbuf]
        exact List.take_of_length_le (by omega)

theorem exec_path_self_exe (env : Env) (addr : Nat) (p : List Char)
    (hdl : ∀ dli, env.dladdr addr = some dli → dli.dli_fname = none)
    (hexe : env.proc_self_exe = some p) (hlen : p.length < 2 ^ 32 - 1) :
    exec_path env addr =
      if to_int p.length = -1 then exec_path_result.failed
      else if to_int p.length < 0 then exec_path_result.fault
      else exec_path_result.path p := by
  have hmin : min p.length (16 - 1) = min p.length 15 := rfl
  obtain ⟨buf1, h1, h2⟩ := readlink_loop_spec env p hexe hlen 14 16
    (readlink env (resize [] 16) (16 - 1)).2 (by norm_num)
    (by rw [readlink_some env p _ _ hexe]; simp only; rw [List.take_append_eq_append_take]; simp)
  have hr : (readlink env (resize [] 16) (16 - 1)).1 = ((min p.length (16 - 1) : Nat) : Int) := by
    rw [readlink_some env p _ _ hexe]
  have hself : (match readlink_loop env 16 (readlink env (resize [] 16) (16 - 1)).2
        (to_int (readlink env (resize [] 16) (16 - 1)).1) with
      | none => exec_path_result.fault
      | some (rlin_size, buf) =>
        if rlin_size = -1 then exec_path_result.failed
        else if rlin_size < 0 then exec_path_result.fault
        else exec_path_result.path (resize buf rlin_size.toNat)) =
      (if to_int p.length = -1 then exec_path_result.failed
       else if to_int p.length < 0 then exec_path_result.fault
       else exec_path_result.path p) := by
    rw [hr, h1]
    simp only
    by_cases ha : to_int (p.length : Int) = -1
    · simp [ha]
    · by_cases hb : to_int (p.length : Int) < 0
      · simp [ha, hb]
      · simp only [ha, hb, if_false]
        have hsmall : to_int (p.length : Int) = p.length := by
          unfold to_int at hb ⊢
          norm_num at hlen hb ⊢
          omega
        rw [hsmall]
        simp only [Int.toNat_ofNat, resize, h2]
        have : buf1.length ≥ p.length := by
          have := congrArg List.length h2
          simp at this
          omega
        simp [Nat.sub_eq_zero_of_le this]
  unfold exec_path
  simp only
  rw [hself]
  cases hd : env.dladdr addr with
  | none => rfl
  | some dli => simp [hdl dli hd]

theorem exec_path_readlink_fails (env : Env) (addr : Nat)
    (hdl : ∀ dli, env.dladdr addr = some dli → dli.dli_fname = none)
    (hexe : env.proc_self_exe = none) :
    exec_path env addr = exec_path_result.failed := by
  have hr : ∀ buf n, readlink env buf n = (-1, buf) := by
    intro buf n; simp [readlink, hexe]
  have h1 : to_int (-1) = -1 := by unfold to_int; norm_num
  have h2 : to_int (((16 : Nat) : Int) - 1) = 15 := by unfold to_int; norm_num
  have hloop : ∀ buf, readlink_loop env 16 buf (-1) = some (-1, buf) := by
    intro buf
    rw [readlink_loop, h2]
    simp
  unfold exec_path
  simp only [hr, h1, hloop]
  cases hd : env.dladdr addr with
  | none => simp
  | some dli => simp [hdl dli hd]

theorem exec_path_of_short_path (env : Env) (addr : Nat) (p : List Char)
    (hdl : ∀ dli, env.dladdr addr = some dli → dli.dli_fname = none)
    (hexe : env.proc_self_exe = some p) (hlen : p.length < 2 ^ 31) :
    exec_path env addr = exec_path_result.path p := by
  have hlen2 : p.length < 2 ^ 32 - 1 := by norm_num at hlen ⊢; omega
  have hsmall : to_int (p.length : Int) = p.length :=
    to_int_of_small _ (by omega) (by exact_mod_cast hlen)
  rw [exec_path_self_exe env addr p hdl hexe hlen2, hsmall]
  have h1 : ¬ ((p.length : Int) = -1) := by omega
  have h2 : ¬ ((p.length : Int) < 0) := by omega
  simp [h1, h2]

theorem addr2line_readlink_fails (env : Env) (flag : List Char) (addr : Nat)
    (hdl : ∀ dli, env.dladdr addr = some dli → dli.dli_fname = none)
    (hexe : env.proc_self_exe = none) :
    addr2line env flag addr = some [] := by
  simp [addr2line, exec_path_readlink_fails env addr hdl hexe]

/-- C10: when `dladdr` gives no module path and `/proc/self/exe` points to a path of `L`
characters, `L < 2^31` (the lengths `readlink` can return fit the `int` `rlin_size`; `PATH_MAX`
is 4096), the buffer-growing loop that starts at 16 bytes and quadruples while the count equals
`size - 1` ends with `rlin_size = L`, and the path handed to the child is the full path, not a
truncated one; when `readlink` fails with -1, `addr2line` returns the empty string. -/
theorem exec_path_full_below_int_max (env : Env) (addr : Nat)
    (hdl : ∀ dli, env.dladdr addr = some dli → dli.dli_fname = none) :
    (∀ p, env.proc_self_exe = some p → p.length < 2 ^ 31 →
      (∃ buf, readlink_loop env 16 (readlink env (resize [] 16) (16 - 1)).2
          (to_int (readlink env (resize [] 16) (16 - 1)).1) = some ((p.length : Int), buf))
      ∧ exec_path env addr = exec_path_result.path p)
    ∧ (env.proc_self_exe = none →
        exec_path env addr = exec_path_result.failed
        ∧ ∀ flag, addr2line env flag addr = some []) := by
  refine ⟨?_, ?_⟩
  · intro p hexe hlen
    have hlen2 : p.length < 2 ^ 32 - 1 := by norm_num at hlen ⊢; omega
    have hsmall : to_int (p.length : Int) = p.length :=
      to_int_of_small _ (by omega) (by exact_mod_cast hlen)
    refine ⟨?_, ?_⟩
    · obtain ⟨buf1, h1, -⟩ := readlink_loop_spec env p hexe hlen2 14 16
        (readlink env (resize [] 16) (16 - 1)).2 (by norm_num)
        (by rw [readlink_some env p _ _ hexe]; simp only
            rw [List.take_append_eq_append_take]; simp)
      refine ⟨buf1, ?_⟩
      have hr : (readlink env (resize [] 16) (16 - 1)).1
          = ((min p.length (16 - 1) : Nat) : Int) := by
        rw [readlink_some env p _ _ hexe]
      rw [hr, h1, hsmall]
    · exact exec_path_of_short_path env addr p hdl hexe hlen
  · intro hexe
    exact ⟨exec_path_readlink_fails env addr hdl hexe,
      fun flag => addr2line_readlink_fails env flag addr hdl hexe⟩

theorem exec_path_full_below_int_max_witness :
    exec_path sample_env_static 7
        = exec_path_result.path "/usr/local/bin/some_long_application".data
    ∧ addr2line sample_env_no_proc "-e".data 7 = some [] :=
  ⟨((exec_path_full_below_int_max sample_env_static 7 (fun _ h => by cases h)).1
      "/usr/local/bin/some_long_application".data rfl (by decide)).2,
   ((exec_path_full_below_int_max sample_env_no_proc 7 (fun _ h => by cases h)).2 rfl).2
      "-e".data⟩

/-! ## Theorems about `frame::name` and `frame::source_file` -/

theorem frame_name_by_tool (env : Env) (addr : Nat)
    (hdl : ∀ dli, env.dladdr addr = some dli → dli.dli_sname = none) :
    frame.name env addr =
      match addr2line env "-fe".data addr with
      | none => none
      | some res =>
        some (if try_demangle env (c_str (substr res 0 (find_last_of res '\n'))) = "??".data
              then []
              else try_demangle env (c_str (substr res 0 (find_last_of res '\n')))) := by
  unfold frame.name
  cases hd : env.dladdr addr with
  | none => rfl
  | some dli => simp [hdl dli hd]

theorem addr2line_of_child (env : Env) (flag : List Char) (addr : Nat) (p out : List Char)
    (hpath : exec_path env addr = exec_path_result.path p)
    (hchild : env.child flag (c_str p) (env.to_hex_array addr) = some out) :
    addr2line env flag addr = some (read_and_trim out) := by
  simp [addr2line, hpath, hchild]

/-- C3 (amended): `frame::name` and `frame::source_file` never return `??`. When the child
writes `out` and the field cut out of the text read from it (before the last newline for the
name, before the last colon for the file) is `??`, the result is empty (for the name, as long
as the demangler does not take `??` for a mangled name); a field `?` is returned as it is. -/
theorem unknown_marker_normalized (env : Env) (addr : Nat) :
    frame.name env addr ≠ some "??".data
    ∧ frame.source_file env addr ≠ some "??".data
    ∧ (∀ p out field, exec_path env addr = exec_path_result.path p →
        (∀ dli, env.dladdr addr = some dli → dli.dli_sname = none) →
        env.child "-fe".data (c_str p) (env.to_hex_array addr) = some out →
        substr (read_and_trim out) 0 (find_last_of (read_and_trim out) '\n') = field →
        (field = "??".data → env.demangle "??".data = none → frame.name env addr = some [])
        ∧ (field = "?".data → env.demangle "?".data = none →
            frame.name env addr = some "?".data))
    ∧ (∀ p out field, exec_path env addr = exec_path_result.path p →
        env.child "-e".data (c_str p) (env.to_hex_array addr) = some out →
        substr (read_and_trim out) 0 (find_last_of (read_and_trim out) ':') = field →
        (field = "??".data → frame.source_file env addr = some [])
        ∧ (field = "?".data → frame.source_file env addr = some "?".data)) := by
  refine ⟨?_, ?_, ?_, ?_⟩
  · unfold frame.name
    have key : ∀ res : List Char, (if res = "??".data then [] else res) ≠ "??".data := by
      intro res
      by_cases h : res = "??".data
      · rw [if_pos h]; decide
      · rw [if_neg h]; exact h
    intro h
    cases hd : env.dladdr addr with
    | none =>
      simp only [hd] at h
      cases ha : addr2line env "-fe".data addr with
      | none => simp [ha] at h
      | some res =>
        simp only [ha, Option.some.injEq] at h
        exact key _ h
    | some dli =>
      simp only [hd] at h
      cases hs : dli.dli_sname with
      | some sname =>
        simp only [hs, Option.some.injEq] at h
        exact key _ h
      | none =>
        simp only [hs] at h
        cases ha : addr2line env "-fe".data addr with
        | none => simp [ha] at h
        | some res =>
          simp only [ha, Option.some.injEq] at h
          exact key _ h
  · unfold frame.source_file
    intro h
    cases ha : addr2line env "-e".data addr with
    | none => simp [ha] at h
    | some res =>
      simp only [ha, Option.some.injEq] at h
      by_cases hq : substr res 0 (find_last_of res ':') = "??".data
      · rw [if_pos hq] at h; exact absurd h (by decide)
      · rw [if_neg hq] at h; exact hq h
  · intro p out field hpath hdl hchild hfield
    have ha := addr2line_of_child env "-fe".data addr p out hpath hchild
    rw [frame_name_by_tool env addr hdl, ha]
    simp only [hfield]
    refine ⟨?_, ?_⟩
    · intro hf hdem
      subst hf
      have hc : c_str "??".data = "??".data := by decide
      simp [hc, try_demangle, hdem]
    · intro hf hdem
      subst hf
      have hc : c_str "?".data = "?".data := by decide
      have hne : ¬ ("?".data = "??".data) := by decide
      simp [hc, try_demangle, hdem, hne]
  · intro p out field hpath hchild hfield
    have ha := addr2line_of_child env "-e".data addr p out hpath hchild
    unfold frame.source_file
    rw [ha]
    simp only [hfield]
    refine ⟨?_, ?_⟩
    · intro hf; simp [hf]
    · intro hf
      have hne : ¬ ("?".data = "??".data) := by decide
      simp [hf, hne]

theorem unknown_marker_normalized_witness :
    frame.name sample_env_module 7 = some []
    ∧ frame.source_file sample_env_module 7 = some []
    ∧ frame.name sample_env_question 7 = some "?".data
    ∧ frame.source_file sample_env_question 7 = some "?".data :=
  ⟨((unknown_marker_normalized sample_env_module 7).2.2.1 "/lib/libfoo.so".data
      "??\n??:0\n".data "??".data rfl (fun _ h => by cases h; rfl) rfl (by decide)).1 rfl rfl,
   ((unknown_marker_normalized sample_env_module 7).2.2.2 "/lib/libfoo.so".data
      "??:0\n".data "??".data rfl rfl (by decide)).1 rfl,
   ((unknown_marker_normalized sample_env_question 7).2.2.1 "/lib/libfoo.so".data
      "?\n?:0\n".data "?".data rfl (fun _ h => by cases h; rfl) rfl (by decide)).2 rfl rfl,
   ((unknown_marker_normalized sample_env_question 7).2.2.2 "/lib/libfoo.so".data
      "?:0\n".data "?".data rfl rfl (by decide)).2 rfl⟩

/-- C3 (counterexample): when the child prints `?` for the function and `?:0` for the
location, `frame::name` and `frame::source_file` both return the literal `?`. -/
theorem question_mark_returned :
    sample_env_question.child "-fe".data "/lib/libfoo.so".data (sample_hex 7)
        = some "?\n?:0\n".data
    ∧ sample_env_question.child "-e".data "/lib/libfoo.so".data (sample_hex 7)
        = some "?:0\n".data
    ∧ frame.name sample_env_question 7 = some "?".data
    ∧ frame.source_file sample_env_question 7 = some "?".data := by
  decide

/-! ## Theorems about `frame::source_line` and the `file:line` split -/

theorem digitChar_isDigit (k : Nat) (h : k < 10) :
    (Nat.digitChar k).isDigit = true ∧ (Nat.digitChar k).toNat - 48 = k := by
  interval_cases k <;> decide

theorem toDigitsCore_all_digits : ∀ (fuel n : Nat) (ds : List Char),
    (∀ c ∈ ds, c.isDigit = true) → ∀ c ∈ Nat.toDigitsCore 10 fuel n ds, c.isDigit = true := by
  intro fuel
  induction fuel with
  | zero => intro n ds h; simpa [Nat.toDigitsCore] using h
  | succ fuel ih =>
    intro n ds h
    have hd := (digitChar_isDigit (n % 10) (Nat.mod_lt _ (by norm_num))).1
    have hcons : ∀ c ∈ Nat.digitChar (n % 10) :: ds, c.isDigit = true := by
      intro c hc
      rcases List.mem_cons.mp hc with e | e
      · rw [e]; exact hd
      · exact h c e
    rw [Nat.toDigitsCore]
    by_cases h0 : n / 10 = 0
    · simp only [h0, if_true]; exact hcons
    · simp only [h0, if_false]; exact ih _ _ hcons

theorem toDigitsCore_ne_nil : ∀ (fuel n : Nat) (ds : List Char),
    0 < fuel → Nat.toDigitsCore 10 fuel n ds ≠ [] := by
  intro fuel
  induction fuel with
  | zero => intro n ds h; omega
  | succ fuel ih =>
    intro n ds _
    rw [Nat.toDigitsCore]
    by_cases h0 : n / 10 = 0
    · simp [h0]
    · simp only [h0, if_false]
      cases fuel with
      | zero => simp [Nat.toDigitsCore]
      | succ f => exact ih _ _ (by omega)

theorem toDigitsCore_value : ∀ (fuel n : Nat) (ds : List Char), n < fuel →
    (Nat.toDigitsCore 10 fuel n ds).foldl (fun a c => 10 * a + (c.toNat - 48)) 0
      = ds.foldl (fun a c => 10 * a + (c.toNat - 48)) n := by
  intro fuel
  induction fuel with
  | zero => intro n ds h; omega
  | succ fuel ih =>
    intro n ds hn
    have hv := (digitChar_isDigit (n % 10) (Nat.mod_lt _ (by norm_num))).2
    rw [Nat.toDigitsCore]
    by_cases h0 : n / 10 = 0
    · simp only [h0, if_true, List.foldl_cons, hv]
      congr 1; omega
    · simp only [h0, if_false]
      rw [ih (n / 10) _ (by omega)]
      simp only [List.foldl_cons, hv]
      congr 1; omega

theorem toDigits_all_digits (n : Nat) : ∀ c ∈ Nat.toDigits 10 n, c.isDigit = true :=
  toDigitsCore_all_digits _ _ _ (by simp)

theorem toDigits_ne_nil (n : Nat) : Nat.toDigits 10 n ≠ [] :=
  toDigitsCore_ne_nil _ _ _ (by omega)

theorem toDigits_value (n : Nat) :
    (Nat.toDigits 10 n).foldl (fun a c => 10 * a + (c.toNat - 48)) 0 = n := by
  have := toDigitsCore_value (n + 1) n [] (by omega)
  simpa [Nat.toDigits] using this

theorem lcast_ret_unsigned_eq_none (s : List Char) :
    lcast_ret_unsigned s = none ↔ ¬ valid_unsigned_decimal s := by
  unfold lcast_ret_unsigned valid_unsigned_decimal
  by_cases h1 : s ≠ [] ∧ s.all Char.isDigit = true
  · by_cases h2 : s.foldl (fun a c => 10 * a + (c.toNat - 48)) 0 < 2 ^ 64
    · simp only [h1, h2, and_self, if_true]
      simp
    · simp only [h1, and_self, if_true, h2, if_false]
      simp [h2]
  · rw [if_neg h1]
    constructor
    · intro _ h; exact h1 ⟨h.1, h.2.1⟩
    · intro _; trivial

theorem try_lexical_convert_digits (n : Nat) (h : n < 2 ^ 64) :
    try_lexical_convert (Nat.toDigits 10 n) = some n := by
  have hne := toDigits_ne_nil n
  have hall := toDigits_all_digits n
  have hval := toDigits_value n
  cases hd : Nat.toDigits 10 n with
  | nil => exact absurd hd hne
  | cons c rest =>
    rw [hd] at hall hval hne
    have hc : c.isDigit = true := hall c (List.mem_cons_self _ _)
    have hm : c ≠ '-' := by intro e; rw [e] at hc; exact absurd hc (by decide)
    have hp : c ≠ '+' := by intro e; rw [e] at hc; exact absurd hc (by decide)
    have hl : lcast_ret_unsigned (c :: rest) = some n := by
      unfold lcast_ret_unsigned
      have hall2 : (c :: rest).all Char.isDigit = true := List.all_eq_true.mpr hall
      rw [if_pos ⟨hne, hall2⟩]
      simp only [hval, h, if_true]
    simp only [try_lexical_convert, hm, hp, or_self, if_false, hl]

theorem find_last_of_eq_none (s : List Char) (c : Char) :
    find_last_of s c = none ↔ c ∉ s := by
  induction s with
  | nil => simp [find_last_of]
  | cons x xs ih =>
    cases h : find_last_of xs c with
    | none =>
      have hx : c ∉ xs := ih.mp h
      by_cases e : x = c
      · simp [find_last_of, h, e]
      · have e2 : ¬ c = x := fun e3 => e e3.symm
        simp [find_last_of, h, e, e2, hx]
    | some i =>
      have hx : ¬ c ∉ xs := fun hn => by rw [ih.mpr hn] at h; cases h
      have hx2 : c ∈ xs := by simpa using hx
      simp [find_last_of, h, hx2]

theorem find_last_of_append (a b : List Char) (c : Char) (h : c ∉ b) :
    find_last_of (a ++ c :: b) c = some a.length := by
  induction a with
  | nil => simp [find_last_of, (find_last_of_eq_none b c).mpr h]
  | cons x xs ih => simp [find_last_of, ih]

theorem rdropWhile_append_all (p : Char → Bool) (a t : List Char) (h : ∀ c ∈ t, p c = true) :
    (a ++ t).rdropWhile p = a.rdropWhile p := by
  induction t using List.reverseRecOn with
  | nil => simp
  | append_singleton t x ih =>
    rw [← List.append_assoc, List.rdropWhile_concat_pos _ _ _ (h x (by simp))]
    exact ih (fun c hc => h c (by simp [hc]))

theorem mem_read_loop : ∀ (fuel : Nat) (p : FILE) (res : List Char),
    ∀ c ∈ read_loop fuel p res, c ∈ res ∨ c ∈ p.pending := by
  intro fuel
  induction fuel with
  | zero => intro p res c hc; exact Or.inl (by simpa [read_loop] using hc)
  | succ k ih =>
    intro p res c hc
    obtain ⟨h1, -, -⟩ := fgets_chars_spec 31 p.pending
    by_cases he : p.eof = true
    · simp only [read_loop, he, if_true] at hc; exact Or.inl hc
    · have he2 : p.eof = false := by simpa using he
      by_cases hd : (fgets_chars 31 p.pending).1 = []
      · simp only [read_loop, he2, fgets, hd, if_true] at hc
        exact Or.inl (by simpa using hc)
      · simp only [read_loop, he2, fgets, hd, if_false, Nat.add_one_sub_one] at hc
        rcases ih _ _ c (by simpa using hc) with h | h
        · rcases List.mem_append.mp h with h | h
          · exact Or.inl h
          · right
            rw [← h1]
            exact List.mem_append_left _ ((List.takeWhile_sublist _).subset h)
        · right
          rw [← h1]
          exact List.mem_append_right _ h

theorem mem_trim_loop : ∀ (k : Nat) (res : List Char), ∀ c ∈ trim_loop k res, c ∈ res := by
  intro k
  induction k with
  | zero => intro res c hc; simpa [trim_loop] using hc
  | succ k ih =>
    intro res c hc
    rw [trim_loop] at hc
    split at hc
    · exact List.mem_of_mem_dropLast (ih _ c hc)
    · exact hc

theorem mem_read_and_trim (out : List Char) : ∀ c ∈ read_and_trim out, c ∈ out := by
  intro c hc
  unfold read_and_trim at hc
  rcases mem_read_loop _ _ _ c (mem_trim_loop _ _ c hc) with h | h
  · simp at h
  · exact h

theorem isDigit_ne (c d : Char) (hc : c.isDigit = true) (hd : d.isDigit = false) : c ≠ d := by
  intro e; rw [e, hd] at hc; cases hc

/-- C6: when the child writes `f ++ ":" ++ decimal(n)`, followed by any run of line feeds
and carriage returns, for a file text `f` without NUL other than `??` (it may hold colons) and
a line `n < 2^64`, `frame::source_file` returns `f` and `frame::source_line` returns `n`: both
cut the text at its last colon. -/
theorem file_line_round_trip (env : Env) (addr : Nat) (p f t : List Char) (n : Nat)
    (hpath : exec_path env addr = exec_path_result.path p)
    (hchild : env.child "-e".data (c_str p) (env.to_hex_array addr)
      = some ((f ++ ':' :: Nat.toDigits 10 n) ++ t))
    (ht : ∀ c ∈ t, c = '\n' ∨ c = '\r')
    (hnul : NUL ∉ f) (hf : f ≠ "??".data) (hn : n < 2 ^ 64) :
    frame.source_file env addr = some f
    ∧ frame.source_line env addr = some n
    ∧ find_last_of (f ++ ':' :: Nat.toDigits 10 n) ':' = some f.length := by
  have hdig := toDigits_all_digits n
  have hcolon : ':' ∉ Nat.toDigits 10 n :=
    fun h => isDigit_ne _ _ (hdig _ h) (by decide) rfl
  have hout_nul : NUL ∉ (f ++ ':' :: Nat.toDigits 10 n) ++ t := by
    intro h
    rcases List.mem_append.mp h with h | h
    · rcases List.mem_append.mp h with h | h
      · exact hnul h
      · rcases List.mem_cons.mp h with h | h
        · exact absurd h (by decide)
        · exact isDigit_ne _ _ (hdig _ h) (by decide) rfl
    · rcases ht _ h with e | e <;> exact absurd e (by decide)
  have htrim : read_and_trim ((f ++ ':' :: Nat.toDigits 10 n) ++ t)
      = f ++ ':' :: Nat.toDigits 10 n := by
    rw [read_and_trim_eq _ hout_nul]
    rw [rdropWhile_append_all _ _ _ (fun c hc => by
      rcases ht c hc with e | e <;> simp [is_line_end, e])]
    rcases List.eq_nil_or_concat (Nat.toDigits 10 n) with h | ⟨d, x, hx⟩
    · exact absurd h (toDigits_ne_nil n)
    · rw [List.concat_eq_append] at hx
      have hxd : x.isDigit = true := hdig x (by rw [hx]; simp)
      have hxl : ¬ is_line_end x = true := by
        have h1 := isDigit_ne x '\n' hxd (by decide)
        have h2 := isDigit_ne x '\r' hxd (by decide)
        simp [is_line_end, h1, h2]
      have e2 : f ++ ':' :: Nat.toDigits 10 n = (f ++ ':' :: d) ++ [x] := by rw [hx]; simp
      rw [e2, List.rdropWhile_concat_neg _ _ _ hxl]
  have ha := addr2line_of_child env "-e".data addr p _ hpath hchild
  rw [htrim] at ha
  have hlast := find_last_of_append f (Nat.toDigits 10 n) ':' hcolon
  refine ⟨?_, ?_, hlast⟩
  · unfold frame.source_file
    rw [ha]
    simp only [hlast, substr, List.drop_zero, List.take_left', hf, if_false]
  · unfold frame.source_line
    rw [ha]
    simp only [hlast, substr]
    have hdrop : List.drop (f.length + 1) (f ++ ':' :: Nat.toDigits 10 n)
        = Nat.toDigits 10 n := by
      rw [List.drop_append_eq_append_drop]
      simp
    rw [hdrop, try_lexical_convert_digits n hn]

theorem file_line_round_trip_witness :
    frame.source_file sample_env_located 7 = some "C:/src/main.cpp".data
    ∧ frame.source_line sample_env_located 7 = some 42 :=
  ⟨(file_line_round_trip sample_env_located 7 "/lib/libfoo.so".data "C:/src/main.cpp".data
      [] 42 rfl rfl (by decide) (by decide) (by decide) (by decide)).1,
   (file_line_round_trip sample_env_located 7 "/lib/libfoo.so".data "C:/src/main.cpp".data
      [] 42 rfl rfl (by decide) (by decide) (by decide) (by decide)).2.1⟩

theorem try_lexical_convert_eq_none (s : List Char) (h1 : ¬ valid_unsigned_decimal s)
    (h2 : ∀ rest, s = '+' :: rest ∨ s = '-' :: rest → ¬ valid_unsigned_decimal rest) :
    try_lexical_convert s = none := by
  cases s with
  | nil => rfl
  | cons c rest =>
    unfold try_lexical_convert
    by_cases hs : c = '-' ∨ c = '+'
    · have hr : ¬ valid_unsigned_decimal rest := by
        rcases hs with e | e
        · exact h2 rest (Or.inr (by rw [e]))
        · exact h2 rest (Or.inl (by rw [e]))
      simp only [hs, if_true, (lcast_ret_unsigned_eq_none rest).mpr hr]
    · simp only [hs, if_false, (lcast_ret_unsigned_eq_none (c :: rest)).mpr h1]

/-- C7 (amended): whatever the child writes, `frame::source_line` returns a value, and the value
is 0 when the output holds no colon, or when the text after the last colon of what was read is
neither a valid unsigned decimal number nor such a number behind one `+` or `-` sign. Behind
a `-` sign the number is accepted and negated modulo `2^64`. -/
theorem source_line_total (env : Env) (addr : Nat) (p out : List Char)
    (hpath : exec_path env addr = exec_path_result.path p)
    (hchild : env.child "-e".data (c_str p) (env.to_hex_array addr) = some out) :
    ∃ v, frame.source_line env addr = some v
      ∧ (':' ∉ out → v = 0)
      ∧ (∀ last, find_last_of (read_and_trim out) ':' = some last →
          ¬ valid_unsigned_decimal ((read_and_trim out).drop (last + 1)) →
          (∀ rest, (read_and_trim out).drop (last + 1) = '+' :: rest
              ∨ (read_and_trim out).drop (last + 1) = '-' :: rest →
            ¬ valid_unsigned_decimal rest) →
          v = 0)
      ∧ (∀ last rest, find_last_of (read_and_trim out) ':' = some last →
          (read_and_trim out).drop (last + 1) = '-' :: rest → valid_unsigned_decimal rest →
          v = (2 ^ 64 - rest.foldl (fun a c => 10 * a + (c.toNat - 48)) 0) % 2 ^ 64) := by
  have ha := addr2line_of_child env "-e".data addr p out hpath hchild
  have hsl : frame.source_line env addr =
      match find_last_of (read_and_trim out) ':' with
      | none => some 0
      | some last =>
        match try_lexical_convert ((read_and_trim out).drop (last + 1)) with
        | none => some 0
        | some line_num => some line_num := by
    unfold frame.source_line
    rw [ha]
    rfl
  rw [hsl]
  cases hl : find_last_of (read_and_trim out) ':' with
  | none =>
    exact ⟨0, rfl, fun _ => rfl, fun last h => (by cases h), fun last rest h => (by cases h)⟩
  | some last =>
    have hmem : ¬ ':' ∉ out := by
      intro hn
      have : ':' ∉ read_and_trim out := fun h => hn (mem_read_and_trim out _ h)
      rw [(find_last_of_eq_none _ _).mpr this] at hl
      cases hl
    dsimp only
    cases hc : try_lexical_convert ((read_and_trim out).drop (last + 1)) with
    | none =>
      refine ⟨0, rfl, fun _ => rfl, fun _ _ _ _ => rfl, ?_⟩
      intro last2 rest h2 hd hv
      simp only [Option.some.injEq] at h2
      subst h2
      rw [hd] at hc
      have hv2 : lcast_ret_unsigned rest ≠ none :=
        fun e => (lcast_ret_unsigned_eq_none rest).mp e hv
      cases hr : lcast_ret_unsigned rest with
      | none => exact absurd hr hv2
      | some w => simp [try_lexical_convert, hr] at hc
    | some v =>
      refine ⟨v, rfl, fun h => absurd h hmem, ?_, ?_⟩
      · intro last2 h2 h3 h4
        simp only [Option.some.injEq] at h2
        subst h2
        rw [try_lexical_convert_eq_none _ h3 h4] at hc
        cases hc
      · intro last2 rest h2 hd hv
        simp only [Option.some.injEq] at h2
        subst h2
        rw [hd] at hc
        have hr : lcast_ret_unsigned rest
            = some (rest.foldl (fun a c => 10 * a + (c.toNat - 48)) 0) := by
          unfold lcast_ret_unsigned
          rw [if_pos ⟨hv.1, hv.2.1⟩]
          simp only [hv.2.2, if_true]
        simp only [try_lexical_convert, true_or, if_true, hr, Option.some.injEq] at hc
        exact hc.symm

theorem source_line_total_witness :
    frame.source_line sample_env_discriminator 7 = some 0 := by
  obtain ⟨v, h1, -, h3, -⟩ := source_line_total sample_env_discriminator 7
    "/lib/libfoo.so".data "/src/main.cpp:12 (discriminator 3)\n".data rfl rfl
  have e : ((read_and_trim "/src/main.cpp:12 (discriminator 3)\n".data).drop (13 + 1)).head?
      = some '1' := by decide
  have hv : v = 0 := h3 13 (by decide) (by decide)
    (fun rest h => by rcases h with h | h <;> (rw [h] at e; simp at e))
  rw [hv] at h1
  exact h1

/-- C7 (counterexample): when the child writes `/src/main.cpp:-1`, the text after the last
colon, `-1`, is not a valid unsigned decimal number, yet `frame::source_line` returns
`2^64 - 1`, not 0. -/
theorem source_line_negative :
    sample_env_negative.child "-e".data "/lib/libfoo.so".data (sample_hex 7)
        = some "/src/main.cpp:-1\n".data
    ∧ ¬ valid_unsigned_decimal "-1".data
    ∧ frame.source_line sample_env_negative 7 = some (2 ^ 64 - 1)
    ∧ frame.source_line sample_env_negative 7 ≠ some 0 := by
  decide

/-! ## Theorems about `backend::to_string(addr)` -/

theorem addr2line_without_module (env : Env) (flag : List Char) (addr : Nat)
    (hdl : env.dladdr addr = none)
    (hlen : ∀ p, env.proc_self_exe = some p → p.length < 2 ^ 31) :
    addr2line env flag addr = some []
    ∨ ∃ q out, env.child flag q (env.to_hex_array addr) = some out
        ∧ addr2line env flag addr = some (read_and_trim out) := by
  have hdl2 : ∀ dli, env.dladdr addr = some dli → dli.dli_fname = none := by
    intro dli h; rw [hdl] at h; cases h
  cases hexe : env.proc_self_exe with
  | none =>
    left
    exact addr2line_readlink_fails env flag addr hdl2 hexe
  | some p =>
    have hpath := exec_path_of_short_path env addr p hdl2 hexe (hlen p hexe)
    cases hc : env.child flag (c_str p) (env.to_hex_array addr) with
    | none => left; simp [addr2line, hpath, hc]
    | some out => right; exact ⟨_, out, hc, addr2line_of_child env flag addr p out hpath hc⟩

/-- C5: for an address that `dladdr` does not know, with the child writing nothing or the
markers of an unknown address (`??` then `??:0` under `-fe`, `??:0` under `-e` and `-Cpe`),
`frame::name` and `frame::source_file` return the empty string, `frame::source_line` returns 0
and `backend::to_string(addr)` is the hexadecimal rendering of the address alone. The
executable path is shorter than `2^31` characters and the demangler takes neither the empty
string nor `??` for a mangled name. -/
theorem unresolvable_address_is_bare_hex (env : Env) (addr : Nat)
    (hdl : env.dladdr addr = none)
    (hlen : ∀ p, env.proc_self_exe = some p → p.length < 2 ^ 31)
    (hd0 : env.demangle [] = none) (hd1 : env.demangle "??".data = none)
    (hfe : ∀ q, env.child "-fe".data q (env.to_hex_array addr)
      ∈ [none, some [], some "??\n??:0".data, some "??\n??:0\n".data])
    (he : ∀ q, env.child "-e".data q (env.to_hex_array addr)
      ∈ [none, some [], some "??:0".data, some "??:0\n".data])
    (hcpe : ∀ q, env.child "-Cpe".data q (env.to_hex_array addr)
      ∈ [none, some [], some "??:0".data, some "??:0\n".data]) :
    frame.name env addr = some []
    ∧ frame.source_file env addr = some []
    ∧ frame.source_line env addr = some 0
    ∧ backend.to_string env addr = some (env.to_hex_array addr) := by
  have hdl2 : ∀ dli, env.dladdr addr = some dli → dli.dli_sname = none := by
    intro dli h; rw [hdl] at h; cases h
  have h_fe : addr2line env "-fe".data addr = some []
      ∨ addr2line env "-fe".data addr = some "??\n??:0".data := by
    rcases addr2line_without_module env "-fe".data addr hdl hlen with h | ⟨q, out, hq, h⟩
    · exact Or.inl h
    · have := hfe q
      rw [hq] at this
      simp only [List.mem_cons, Option.some.injEq, List.mem_singleton, reduceCtorEq,
        false_or, List.not_mem_nil, or_false] at this
      rcases this with e | e | e <;> subst e
      · left; rw [h]; decide
      · right; rw [h]; decide
      · right; rw [h]; decide
  have locate : ∀ flag : List Char,
      (∀ q, env.child flag q (env.to_hex_array addr)
        ∈ [none, some [], some "??:0".data, some "??:0\n".data]) →
      addr2line env flag addr = some [] ∨ addr2line env flag addr = some "??:0".data := by
    intro flag hflag
    rcases addr2line_without_module env flag addr hdl hlen with h | ⟨q, out, hq, h⟩
    · exact Or.inl h
    · have := hflag q
      rw [hq] at this
      simp only [List.mem_cons, Option.some.injEq, List.mem_singleton, reduceCtorEq,
        false_or, List.not_mem_nil, or_false] at this
      rcases this with e | e | e <;> subst e
      · left; rw [h]; decide
      · right; rw [h]; decide
      · right; rw [h]; decide
  have h_e := locate "-e".data he
  have h_cpe := locate "-Cpe".data hcpe
  have hname : frame.name env addr = some [] := by
    rw [frame_name_by_tool env addr hdl2]
    have c0 : c_str (substr [] 0 (find_last_of [] '\n')) = [] := by decide
    have c1 : c_str (substr "??\n??:0".data 0 (find_last_of "??\n??:0".data '\n'))
        = "??".data := by decide
    have hne : ¬ (([] : List Char) = "??".data) := by decide
    rcases h_fe with h | h
    · rw [h]; simp only [c0, try_demangle, hd0, hne, if_false]
    · rw [h]; simp only [c1, try_demangle, hd1, if_true]
  refine ⟨hname, ?_, ?_, ?_⟩
  · unfold frame.source_file
    rcases h_e with h | h <;> rw [h] <;> decide
  · unfold frame.source_line
    rcases h_e with h | h <;> rw [h] <;> decide
  · unfold backend.to_string
    rw [hname]
    rcases h_cpe with h | h
    · rw [h]; simp [hdl]
    · rw [h]
      have hq : ¬ ("??:0".data ≠ [] ∧ "??:0".data.head? ≠ some '?') := by decide
      simp only [hq, if_false, if_true, hdl]

theorem unresolvable_address_is_bare_hex_witness :
    frame.name sample_env_static 7 = some []
    ∧ frame.source_file sample_env_static 7 = some []
    ∧ frame.source_line sample_env_static 7 = some 0
    ∧ backend.to_string sample_env_static 7 = some "0x7".data :=
  unresolvable_address_is_bare_hex sample_env_static 7 rfl
    (fun p h => by cases h; decide) rfl rfl
    (fun _ => by simp [sample_env_static, sample_child_unknown])
    (fun _ => by simp [sample_env_static, sample_child_unknown])
    (fun _ => by simp [sample_env_static, sample_child_unknown])

/-- C4: at an address whose module `dladdr` reports (`/lib/libfoo.so`) without a symbol name,
with no name and no source location from `addr2line`, `frame::name` is empty and
`backend::to_string(addr)` is the hexadecimal rendering alone: the module path is not
appended. -/
theorem to_string_omits_module_path :
    sample_env_module.dladdr 7
        = some { dli_fname := some "/lib/libfoo.so".data, dli_sname := none }
    ∧ frame.name sample_env_module 7 = some []
    ∧ addr2line sample_env_module "-Cpe".data 7 = some "??:0".data
    ∧ backend.to_string sample_env_module 7 = some (sample_hex 7)
    ∧ backend.to_string sample_env_module 7 ≠ some (sample_hex 7 ++ " in /lib/libfoo.so".data) := by
  decide

end Stacktrace
